import Mathlib

/-!
Verification development for the Saafir action-routing agent (TypeScript).

The TypeScript sources are shallowly embedded: JS strings are modelled as
`String` / `List Char`, JS runtime values as `JSValue`, `JSON.parse` as a
fuelled recursive-descent parser over char lists, the zod schema shapes the
coercion layer inspects as `ZodKind`, and the stateful `run` pipeline as a
pure function returning an outcome record (result, invoked handlers, whether
the network was contacted).
-/

/-- JSON whitespace, exactly the four characters `JSON.parse` skips. -/
def isWs (c : Char) : Bool :=
  c = ' ' || c = '\t' || c = '\n' || c = '\r'

/-- Whitespace removed by JS `String.prototype.trim` (ASCII fragment plus the
common Unicode space characters). -/
def isJsWs (c : Char) : Bool :=
  c = ' ' || c = '\t' || c = '\n' || c = '\r' || c = Char.ofNat 11 ||
  c = Char.ofNat 12 || c = Char.ofNat 0xa0 || c = Char.ofNat 0xfeff

/-- Drop leading JSON whitespace. -/
def skipWs : List Char → List Char
  | [] => []
  | c :: t => if isWs c then skipWs t else c :: t

/-- Drop leading JS-trim whitespace. -/
def dropJsWs (l : List Char) : List Char := l.dropWhile isJsWs

/-- Embedding of JS `trim` on char lists: drop trim-whitespace at both ends. -/
def trimJs (l : List Char) : List Char :=
  dropJsWs ((dropJsWs l.reverse).reverse)

/-- JS `trim` on strings. -/
def jsTrim (s : String) : String := String.mk (trimJs s.data)

/-- JS `toLowerCase` (ASCII fragment): lower-case every character. -/
def jsToLower (s : String) : String := String.mk (s.data.map Char.toLower)

/-- JS runtime values as far as the agent manipulates them.  Numbers keep
their JSON lexeme (no claim depends on numeric arithmetic).  A `date` records
whether JS `new Date(string)` produced a valid date, plus the source text. -/
inductive JSValue where
  | undefined : JSValue
  | null : JSValue
  | bool : Bool → JSValue
  | num : String → JSValue
  | str : String → JSValue
  | date : Bool → String → JSValue
  | arr : List JSValue → JSValue
  | obj : List (String × JSValue) → JSValue

/-- Top-level bindings of a JS object, in property order. -/
abbrev Fields := List (String × JSValue)

/-- Property read on a JS object (first binding; built objects are dup-free). -/
def jsGetField : Fields → String → Option JSValue
  | [], _ => none
  | (k, v) :: rest, key => if k = key then some v else jsGetField rest key

/-- Property assignment on a JS object: an existing key keeps its position and
gets the new value, a new key is appended. -/
def jsSetField : Fields → String → JSValue → Fields
  | [], key, v => [(key, v)]
  | (k, w) :: rest, key, v =>
    if k = key then (k, v) :: rest else (k, w) :: jsSetField rest key v

/-- Digit span of a char list: `(takeWhile isDigit, dropWhile isDigit)`. -/
def spanDigits (l : List Char) : List Char × List Char :=
  (l.takeWhile Char.isDigit, l.dropWhile Char.isDigit)

/-- Hex digit value, for JSON `\uXXXX` escapes. -/
def hexVal (c : Char) : Option Nat :=
  if c.isDigit then some (c.toNat - '0'.toNat)
  else if 'a' ≤ c ∧ c ≤ 'f' then some (c.toNat - 'a'.toNat + 10)
  else if 'A' ≤ c ∧ c ≤ 'F' then some (c.toNat - 'A'.toNat + 10)
  else none

/-- Single-character JSON escapes. -/
def escChar (e : Char) : Option Char :=
  if e = '"' then some '"'
  else if e = '\\' then some '\\'
  else if e = '/' then some '/'
  else if e = 'b' then some (Char.ofNat 8)
  else if e = 'f' then some (Char.ofNat 12)
  else if e = 'n' then some '\n'
  else if e = 'r' then some '\r'
  else if e = 't' then some '\t'
  else none

/-- Character denoted by a `\uXXXX` escape, when all four are hex digits. -/
def hex4Val (h1 h2 h3 h4 : Char) : Option Char :=
  match hexVal h1, hexVal h2, hexVal h3, hexVal h4 with
  | some a, some b, some c1, some d =>
    some (Char.ofNat (a * 4096 + b * 256 + c1 * 16 + d))
  | _, _, _, _ => none

/-- String-literal body parser: the input starts right after the opening
quote; on success returns the decoded text and the characters after the
closing quote. -/
def parseStrBody : List Char → Option (String × List Char)
  | [] => none
  | c :: t =>
    if c = '"' then some ("", t)
    else if c = '\\' then
      match t with
      | [] => none
      | e :: t2 =>
        if e = 'u' then
          match t2 with
          | h1 :: h2 :: h3 :: h4 :: t3 =>
            match hex4Val h1 h2 h3 h4 with
            | some uc =>
              (parseStrBody t3).map (fun pr => (String.mk (uc :: pr.1.data), pr.2))
            | none => none
          | _ => none
        else
          match escChar e with
          | some ec =>
            (parseStrBody t2).map (fun pr => (String.mk (ec :: pr.1.data), pr.2))
          | none => none
    else if c.toNat < 32 then none
    else (parseStrBody t).map (fun pr => (String.mk (c :: pr.1.data), pr.2))

/-- Exponent part of a JSON number (optional); `lex` is the lexeme so far. -/
def parseExpPart (lex : List Char) (r : List Char) : Option (JSValue × List Char) :=
  match r with
  | [] => some (.num (String.mk lex), [])
  | c :: t =>
    if c = 'e' ∨ c = 'E' then
      match t with
      | [] => none
      | s :: t2 =>
        if s = '+' ∨ s = '-' then
          if (spanDigits t2).1 = [] then none
          else some (.num (String.mk (lex ++ c :: s :: (spanDigits t2).1)), (spanDigits t2).2)
        else
          if (spanDigits (s :: t2)).1 = [] then none
          else some (.num (String.mk (lex ++ c :: (spanDigits (s :: t2)).1)), (spanDigits (s :: t2)).2)
    else some (.num (String.mk lex), r)

/-- Fraction part of a JSON number (optional), then the exponent part. -/
def parseFracPart (lex : List Char) (r : List Char) : Option (JSValue × List Char) :=
  match r with
  | [] => parseExpPart lex []
  | c :: t =>
    if c = '.' then
      if (spanDigits t).1 = [] then none
      else parseExpPart (lex ++ '.' :: (spanDigits t).1) (spanDigits t).2
    else parseExpPart lex (c :: t)

/-- JSON number parser, per the JSON grammar (`-? (0 | [1-9][0-9]*) frac? exp?`). -/
def parseNum (l : List Char) : Option (JSValue × List Char) :=
  match l with
  | [] => none
  | c :: t =>
    if c = '-' then
      match t with
      | [] => none
      | c2 :: t2 =>
        if c2 = '0' then parseFracPart ['-', '0'] t2
        else if c2.isDigit then
          parseFracPart ('-' :: (spanDigits (c2 :: t2)).1) (spanDigits (c2 :: t2)).2
        else none
    else if c = '0' then parseFracPart ['0'] t
    else if c.isDigit then
      parseFracPart (spanDigits (c :: t)).1 (spanDigits (c :: t)).2
    else none

/-- Literal keyword parser: consume `lit` from the front of `t`. -/
def expectLit (lit : List Char) (v : JSValue) (t : List Char) : Option (JSValue × List Char) :=
  if lit.isPrefixOf t then some (v, t.drop lit.length) else none

mutual

/-- Fuelled JSON value parser (embedding of `JSON.parse`): parses one value
at the head of the list and returns it with the unconsumed remainder. -/
def parseVal : Nat → List Char → Option (JSValue × List Char)
  | 0, _ => none
  | _ + 1, [] => none
  | f + 1, c :: t =>
    if c = 'n' then expectLit ['u', 'l', 'l'] .null t
    else if c = 't' then expectLit ['r', 'u', 'e'] (.bool true) t
    else if c = 'f' then expectLit ['a', 'l', 's', 'e'] (.bool false) t
    else if c = '"' then
      match parseStrBody t with
      | some (s, r) => some (.str s, r)
      | none => none
    else if c = '[' then
      match skipWs t with
      | [] => none
      | c2 :: r => if c2 = ']' then some (.arr [], r) else parseElems f (c2 :: r) []
    else if c = '{' then
      match skipWs t with
      | [] => none
      | c2 :: r => if c2 = '}' then some (.obj [], r) else parseMembers f (c2 :: r) []
    else if c = '-' ∨ c.isDigit then parseNum (c :: t)
    else none

/-- Array elements after the first `[` (first element not yet consumed). -/
def parseElems : Nat → List Char → List JSValue → Option (JSValue × List Char)
  | 0, _, _ => none
  | f + 1, l, acc =>
    match parseVal f l with
    | none => none
    | some (v, r1) =>
      match skipWs r1 with
      | [] => none
      | c2 :: r2 =>
        if c2 = ',' then parseElems f (skipWs r2) (acc ++ [v])
        else if c2 = ']' then some (.arr (acc ++ [v]), r2)
        else none

/-- Object members after the first `{` (first key not yet consumed).
Duplicate keys follow JS semantics: last value wins, first position kept. -/
def parseMembers : Nat → List Char → Fields → Option (JSValue × List Char)
  | 0, _, _ => none
  | f + 1, l, acc =>
    match l with
    | [] => none
    | c0 :: t =>
      if c0 = '"' then
        match parseStrBody t with
        | none => none
        | some (k, r1) =>
          match skipWs r1 with
          | [] => none
          | c1 :: r2 =>
            if c1 = ':' then
              match parseVal f (skipWs r2) with
              | none => none
              | some (v, r3) =>
                match skipWs r3 with
                | [] => none
                | c3 :: r4 =>
                  if c3 = ',' then parseMembers f (skipWs r4) (jsSetField acc k v)
                  else if c3 = '}' then some (.obj (jsSetField acc k v), r4)
                  else none
            else none
      else none

end

/-- Embedding of `JSON.parse` on char lists: whitespace may surround the
single top-level value; anything else fails (`none` models the thrown
`SyntaxError`). -/
def parseJsonL (l : List Char) : Option JSValue :=
  match parseVal (4 * l.length + 4) (skipWs l) with
  | some (v, rest) => if skipWs rest = [] then some v else none
  | none => none

/-- `JSON.parse` on strings. -/
def parseJson (s : String) : Option JSValue := parseJsonL s.data

/-- The backtick character. -/
def tickChar : Char := Char.ofNat 96

/-- The leading fence `"```json\n"` stripped by `determineActionAndExtractParams`. -/
def fenceJson : List Char := "```json\n".data

/-- The trailing fence `"```"`. -/
def ticks3 : List Char := "```".data

/-- Embedding of `response.replace(/^```json\n|```$/g, "")`: without the `m`
flag, `^` matches only at the string start and `$` only at the string end, so
exactly one leading `"```json\n"` and one trailing `"```"` are removed. -/
def stripFences (l : List Char) : List Char :=
  let l1 := if fenceJson.isPrefixOf l then l.drop fenceJson.length else l
  if ticks3.isSuffixOf l1 then l1.take (l1.length - ticks3.length) else l1

/-- The cleaning step `response.replace(/^```json\n|```$/g, "").trim()`. -/
def cleanResponse (s : String) : List Char := trimJs (stripFences s.data)

/-- The three-field envelope the model must return. -/
structure Envelope where
  actionName : String
  parameters : JSValue
  response : String

/-- JS `typeof v === "object"`: true for `null`, arrays, plain objects and
`Date` objects alike. -/
def typeofIsObject : JSValue → Bool
  | .null => true
  | .arr _ => true
  | .obj _ => true
  | .date _ _ => true
  | _ => false

/-- Error text thrown by the envelope-parsing `catch` block; it carries the
raw model output. -/
def invalidMsg (response : String) : String :=
  "AI response is not valid JSON: " ++ response

/-- Parsing/validation steps of `determineActionAndExtractParams` applied to
the raw chat output: strip fences, trim, `JSON.parse`, then the structural
check `typeof parsed.actionName === "string" && typeof parsed.parameters ===
"object" && typeof parsed.response === "string"`.  Every failure (syntax
error, structural failure, or the `TypeError` from reading a property of
`null`) is caught by the same `catch`; `none` here stands for that shared
failure path. -/
def parseEnvelopeCore (clean : List Char) : Option Envelope :=
  match parseJsonL clean with
  | some (.obj fs) =>
    match jsGetField fs "actionName", jsGetField fs "parameters",
          jsGetField fs "response" with
    | some (.str an), some p, some (.str rs) =>
      if typeofIsObject p then some ⟨an, p, rs⟩ else none
    | _, _, _ => none
  | _ => none

/-- The same steps as a thrown/returned result: any failure of
`parseEnvelopeCore` surfaces as the `InvalidEnvelope` error carrying the raw
model output. -/
def parseEnvelope (response : String) : Except String Envelope :=
  match parseEnvelopeCore (cleanResponse response) with
  | some env => .ok env
  | none => .error (invalidMsg response)

/-- Shape of a zod schema as far as `preprocessParameters` inspects it with
`instanceof` (`ZodObject` / `ZodDate` / `ZodBoolean` / `ZodArray` /
`ZodOptional` and its `innerType`); `zOther` stands for any other schema. -/
inductive ZodKind where
  | zString : ZodKind
  | zNumber : ZodKind
  | zBoolean : ZodKind
  | zDate : ZodKind
  | zArray : ZodKind → ZodKind
  | zObject : List (String × ZodKind) → ZodKind
  | zOptional : ZodKind → ZodKind
  | zOther : ZodKind

/-- Validity of JS `new Date(string)` on a simplified ISO fragment
(`YYYY-MM-DD` prefix, optionally followed by a `T` time part).  The
construction itself is total: `new Date` never throws on a string, it at
worst yields an Invalid Date. -/
def jsDateValid (s : String) : Bool :=
  match s.data with
  | y1 :: y2 :: y3 :: y4 :: '-' :: m1 :: m2 :: '-' :: d1 :: d2 :: rest =>
    y1.isDigit && y2.isDigit && y3.isDigit && y4.isDigit &&
    m1.isDigit && m2.isDigit && d1.isDigit && d2.isDigit &&
    (rest = [] || rest.headD ' ' = 'T')
  | _ => false

/-- String-to-boolean repair block of `preprocessParameters` (guard:
value not `undefined` and `typeof ... === "string"`); the pair's second
component records whether the `WARNING` debug log fired. -/
def boolCoerce : JSValue → JSValue × Bool
  | .str s =>
    let t := jsToLower s
    if t = "true" ∨ t = "1" ∨ t = "yes" then (.bool true, false)
    else if t = "false" ∨ t = "0" ∨ t = "no" then (.bool false, false)
    else (.str s, true)
  | v => (v, false)

/-- String-to-date repair block (guard: value truthy and a string, so a
non-empty string).  `new Date(s)` never throws, so the `catch` that would
keep the original value is unreachable and no warning is ever recorded. -/
def dateCoerce : JSValue → JSValue × Bool
  | .str s => if s = "" then (.str s, false) else (.date (jsDateValid s) s, false)
  | v => (v, false)

/-- JS `String.prototype.split` with a single-character separator. -/
def splitOnChar (c : Char) : List Char → List (List Char)
  | [] => [[]]
  | x :: t =>
    if x = c then [] :: splitOnChar c t
    else
      match splitOnChar c t with
      | h :: rest => (x :: h) :: rest
      | [] => [[x]]

/-- `split(",")` then `trim` of every piece, the comma-split fallback of the
array repair block. -/
def splitCommaTrim (s : String) : List JSValue :=
  (splitOnChar ',' s.data).map (fun x => .str (String.mk (trimJs x)))

/-- The array repair itself: `try { JSON.parse } catch { split-and-trim }`;
`split` never throws, so the inner `catch` is unreachable. -/
def arrayRepair (s : String) : JSValue :=
  match parseJsonL s.data with
  | some j => j
  | none => .arr (splitCommaTrim s)

/-- String-to-array repair block (guard: value truthy and a string): apply
the repair; no warning is ever recorded. -/
def arrayCoerce : JSValue → JSValue × Bool
  | .str s => if s = "" then (.str s, false) else (arrayRepair s, false)
  | v => (v, false)

/-- String-to-object repair block (guard: value truthy and a string): try
`JSON.parse`; on failure keep the original value and warn. -/
def objectCoerce : JSValue → JSValue × Bool
  | .str s =>
    if s = "" then (.str s, false)
    else
      match parseJsonL s.data with
      | some j => (j, false)
      | none => (.str s, true)
  | v => (v, false)

/-- Per-field dispatch of `preprocessParameters` on the field's schema class
(`ZodDate` / `ZodBoolean` / `ZodArray` / `ZodObject`, plain or wrapped in
`ZodOptional`); any other field kind is left untouched. -/
def coerceValueW (kind : ZodKind) (v : JSValue) : JSValue × Bool :=
  match kind with
  | .zDate => dateCoerce v
  | .zBoolean => boolCoerce v
  | .zArray _ => arrayCoerce v
  | .zObject _ => objectCoerce v
  | .zOptional inner =>
    match inner with
    | .zDate => dateCoerce v
    | .zBoolean => boolCoerce v
    | .zArray _ => arrayCoerce v
    | .zObject _ => objectCoerce v
    | _ => (v, false)
  | _ => (v, false)

/-- The coerced value, warnings dropped (they only feed the debug log). -/
def coerceValue (kind : ZodKind) (v : JSValue) : JSValue :=
  (coerceValueW kind v).1

/-- One iteration of the `Object.keys(shape).forEach` loop: a key absent from
the object is untouched (every repair guard needs a string there), a present
key gets its value coerced in place. -/
def updateField (fs : Fields) (key : String) (kind : ZodKind) : Fields :=
  match jsGetField fs key with
  | none => fs
  | some v => jsSetField fs key (coerceValue kind v)

/-- The whole `forEach` loop over the declared shape, in declaration order. -/
def preprocessFields (shape : List (String × ZodKind)) (fs : Fields) : Fields :=
  shape.foldl (fun acc kv => updateField acc kv.1 kv.2) fs

/-- JS object spread `{ ...parameters }`: own enumerable properties of the
spread value (chars of a string, elements of an array, nothing for
primitives). -/
def spreadToFields : JSValue → Fields
  | .obj fs => fs
  | .arr xs => (xs.enum.map (fun p => (toString p.1, p.2)))
  | .str s => (s.data.enum.map (fun p => (toString p.1, JSValue.str (String.mk [p.2]))))
  | _ => []

/-- Embedding of `Saafir.preprocessParameters`: a non-`ZodObject` schema
returns the parameters untouched; otherwise the top-level entries are copied
(`{ ...parameters }`) and each declared field of the copy is repaired. -/
def preprocessParameters (parameters : JSValue) (schema : ZodKind) : JSValue :=
  match schema with
  | .zObject shape => .obj (preprocessFields shape (spreadToFields parameters))
  | _ => parameters

/-- Object identities for the store-passing reading of
`preprocessParameters`: a store is a list of objects addressed by index. -/
abbrev Store := List Fields

/-- Read an object out of the store. -/
def storeGet (σ : Store) (p : Nat) : Option Fields := σ[p]?

/-- Result of the store-passing `preprocessParameters`: either the very
reference that was passed in, or a freshly allocated object. -/
inductive PreResult where
  | orig : PreResult
  | newObj : Nat → PreResult
deriving DecidableEq

/-- Store-passing embedding of `preprocessParameters` when the argument is an
object reference `p`: a non-`ZodObject` schema returns `p` itself with the
store untouched; otherwise `{ ...parameters }` allocates a fresh object, the
`forEach` loop mutates only that copy, and the copy is returned. -/
def preprocessParametersStore (σ : Store) (p : Nat) (schema : ZodKind) :
    Store × PreResult :=
  match schema with
  | .zObject shape =>
    let fields := (storeGet σ p).getD []
    (σ ++ [preprocessFields shape fields], .newObj σ.length)
  | _ => (σ, .orig)

mutual

/-- Fragment of zod validation (`schema.parse` succeeds or throws) on the
schema shapes of `ZodKind`: scalars check the runtime type, `z.date()`
additionally rejects Invalid Date, arrays check every element, objects check
every declared field (missing keys validate `undefined`, so required fields
fail), `optional` also accepts `undefined`, and `zOther` accepts anything. -/
def zodAccepts : ZodKind → JSValue → Bool
  | .zString, v => match v with | .str _ => true | _ => false
  | .zNumber, v => match v with | .num _ => true | _ => false
  | .zBoolean, v => match v with | .bool _ => true | _ => false
  | .zDate, v => match v with | .date ok _ => ok | _ => false
  | .zArray e, v => match v with | .arr xs => zodAcceptsAll e xs | _ => false
  | .zObject shape, v => match v with | .obj fs => zodAcceptsShape shape fs | _ => false
  | .zOptional k, v => match v with | .undefined => true | w => zodAccepts k w
  | .zOther, _ => true
termination_by k _ => (sizeOf k, 0)
decreasing_by all_goals (simp_wf; omega)

/-- Every array element validates. -/
def zodAcceptsAll : ZodKind → List JSValue → Bool
  | _, [] => true
  | e, x :: xs => zodAccepts e x && zodAcceptsAll e xs
termination_by e xs => (sizeOf e, xs.length + 1)
decreasing_by all_goals (simp_wf; omega)

/-- Every declared field of an object shape validates. -/
def zodAcceptsShape : List (String × ZodKind) → Fields → Bool
  | [], _ => true
  | (k, kind) :: rest, fs =>
    zodAccepts kind ((jsGetField fs k).getD .undefined) && zodAcceptsShape rest fs
termination_by shape _ => (sizeOf shape, 0)
decreasing_by all_goals (simp_wf; omega)

end

/-- Message roles the agent sends to the chat-completion client. -/
inductive ChatRole where
  | system : ChatRole
  | user : ChatRole

/-- One chat message. -/
structure ChatMessage where
  role : ChatRole
  content : String

/-- Outcome of the chat step, independent of the message list: the returned
text and whether the network (OpenRouter) was contacted.  Mirrors
`if (this.mockChatResponse) return this.mockChatResponse;` — a JS truthiness
test, so the empty string falls through to the network call — followed by
`res.choices?.[0]?.message?.content?.trim() ?? ""` on the network answer
(`none` models a missing content field). -/
def chatOutput (mock : Option String) (net : Option String) : String × Bool :=
  match mock with
  | some m => if m ≠ "" then (m, false) else ((net.map jsTrim).getD "", true)
  | none => ((net.map jsTrim).getD "", true)

/-- Embedding of `Saafir.chat`: the message list is forwarded to the network
only when no truthy mock is configured; the mock path ignores it. -/
def chat (_messages : List ChatMessage) (mock : Option String)
    (net : Option String) : String × Bool :=
  chatOutput mock net

/-- A registered action: schema shape (for the coercion layer), the pluggable
`schema.parse` validator (`.error` models a thrown `ZodError`, the string
being its `catch`-side stringification), and the handler `call` (`.error`
models a thrown handler error). -/
structure ActionDefinition where
  kind : ZodKind
  parse : JSValue → Except String JSValue
  call : JSValue → Except String JSValue
  description : Option String := none

/-- The agent state `run` reads: the flat action registry and the optional
mock chat response. -/
structure Agent where
  actions : List (String × ActionDefinition)
  mockChatResponse : Option String := none

/-- What a JS property read on the action registry can produce: a registered
action (an own key), a truthy value inherited from `Object.prototype` (the
read `this.actions[name]` consults the prototype chain), or `undefined`. -/
inductive LookupResult where
  | found : ActionDefinition → LookupResult
  | inherited : LookupResult
  | notFound : LookupResult

/-- Property names every plain JS object literal inherits from
`Object.prototype`; reading any of them yields a truthy function or object,
never `undefined`. -/
def objectProtoKeys : List String :=
  ["constructor", "hasOwnProperty", "isPrototypeOf", "propertyIsEnumerable",
   "toLocaleString", "toString", "valueOf", "__proto__",
   "__defineGetter__", "__defineSetter__", "__lookupGetter__",
   "__lookupSetter__"]

/-- Embedding of `Saafir.findActionByName`: `this.actions[name] ?? null` is a
JS property access, so it consults the prototype chain.  An own key yields
its `ActionDefinition`; a name inherited from `Object.prototype` (such as
`toString` or `constructor`) yields a truthy non-action value, so `?? null`
does not fire; only genuinely absent names give `null`. -/
def findActionByName : List (String × ActionDefinition) → String → LookupResult
  | [], name => if name ∈ objectProtoKeys then .inherited else .notFound
  | (k, a) :: rest, name => if k = name then .found a else findActionByName rest name

/-- Stringification (modern V8 wording) of the `TypeError` thrown by
`action.schema.parse(...)` when the lookup returned an inherited prototype
member: `action.schema` is `undefined`, so reading `.parse` on it throws.
(`preprocessParameters` runs first but passes the parameters straight
through, since `undefined` is not a `ZodObject`.) -/
def undefinedParseError : String :=
  "TypeError: Cannot read properties of undefined (reading 'parse')"

/-- What one `run` call produced: the returned value or the thrown error
text, the names of the handlers that were invoked, and whether the network
was contacted. -/
structure RunOutcome where
  result : Except String String
  invoked : List String
  networkCalled : Bool

/-- `catch`-side wrapper of `run`: every failure is rethrown as
`Error occurred while running action: ${error}`. -/
def runWrap (e : String) : String :=
  "Error occurred while running action: " ++ e

/-- Embedding of `Saafir.run` (the variant with parameter preprocessing):
chat, clean+parse+structurally validate the envelope, look the action up,
preprocess then validate the parameters, invoke the handler, and return the
envelope's `response`.  JS stringifies a thrown `Error` as `Error: <msg>`,
hence the prefix on the errors constructed here. -/
def run (ag : Agent) (net : Option String) (_input : String) : RunOutcome :=
  let co := chatOutput ag.mockChatResponse net
  match parseEnvelope co.1 with
  | .error e => ⟨.error (runWrap ("Error: " ++ e)), [], co.2⟩
  | .ok env =>
    match findActionByName ag.actions env.actionName with
    | .notFound =>
      ⟨.error (runWrap ("Error: Action \"" ++ env.actionName ++ "\" not found.")),
       [], co.2⟩
    | .inherited => ⟨.error (runWrap undefinedParseError), [], co.2⟩
    | .found action =>
      let processed := preprocessParameters env.parameters action.kind
      match action.parse processed with
      | .error e => ⟨.error (runWrap e), [], co.2⟩
      | .ok validated =>
        match action.call validated with
        | .error e => ⟨.error (runWrap e), [env.actionName], co.2⟩
        | .ok _ => ⟨.ok env.response, [env.actionName], co.2⟩

/-- Modelled from the spec: the nested registry variant (`ActionTree` as a
tagged tree) is absent from `src/` — the flat `ActionTree` map is all the
TypeScript under `src/` has — so the tree and its lookup are taken from
spec §4.1.  A node is exactly one of leaf (a registered action, here an
abstract payload) or branch (children keyed by path segment). -/
inductive NestedTree (α : Type) where
  | leaf : α → NestedTree α
  | branch : List (String × NestedTree α) → NestedTree α

/-- Modelled from the spec: depth-first walk of a branch's children looking
for a leaf registered under `seg`, descending into every nested branch. -/
def flatFindChildren {α : Type} (seg : String) :
    List (String × NestedTree α) → Option α
  | [] => none
  | (k, .leaf a) :: rest =>
    if k = seg then some a else flatFindChildren seg rest
  | (_k, .branch cs) :: rest =>
    match flatFindChildren seg cs with
    | some a => some a
    | none => flatFindChildren seg rest

/-- Modelled from the spec: the recursive flat search — depth-first over
every branch node, returning the first leaf whose registration key equals
the segment, regardless of depth. -/
def flatFind {α : Type} (seg : String) : NestedTree α → Option α
  | .leaf _ => none
  | .branch cs => flatFindChildren seg cs

/-- Modelled from the spec: child of a branch with the given key. -/
def assocChild {α : Type} (seg : String) :
    List (String × NestedTree α) → Option (NestedTree α)
  | [] => none
  | (k, t) :: rest => if k = seg then some t else assocChild seg rest

/-- Modelled from the spec: segment-by-segment descent — descending past a
leaf fails, a missing segment fails, and a path ending on a branch yields no
action. -/
def descendTree {α : Type} : NestedTree α → List String → Option α
  | .leaf a, [] => some a
  | .leaf _, _ :: _ => none
  | .branch _, [] => none
  | .branch cs, seg :: rest =>
    match assocChild seg cs with
    | some t => descendTree t rest
    | none => none

/-- Modelled from the spec: nested-registry lookup — an empty path always
fails; a single-segment path first attempts the recursive flat search and
only then the ordinary descent; a longer path descends segment by segment. -/
def lookupTree {α : Type} (t : NestedTree α) : List String → Option α
  | [] => none
  | [seg] =>
    match flatFind seg t with
    | some a => some a
    | none => descendTree t [seg]
  | seg :: s2 :: rest => descendTree t (seg :: s2 :: rest)

/-- A JSON body wrapped in a leading ```json fence and a trailing ``` fence,
the shape of model output the cleaning step is designed to repair. -/
def wrapFence (s : String) : String := "```json\n" ++ s ++ "\n```"

/-- The structural check of the envelope as the source performs it, read off
a parsed JSON value: `actionName` bound to a string, `parameters` bound to a
value whose JS `typeof` is `"object"` (which `null` and arrays satisfy), and
`response` bound to a string; anything that is not a JSON object fails (a
property read on a non-object yields `undefined`, or throws for `null`). -/
def envStructCheck (v : JSValue) : Bool :=
  match v with
  | .obj fs =>
    match jsGetField fs "actionName", jsGetField fs "parameters",
          jsGetField fs "response" with
    | some (.str _), some p, some (.str _) => typeofIsObject p
    | _, _, _ => false
  | _ => false

/-- Characters a successfully parsed JSON value can end with: closing quote,
closing bracket or brace, the last letter of `true`/`false`/`null`, or a
digit.  The backtick is not among them. -/
def goodClose (c : Char) : Prop :=
  c = '"' ∨ c = ']' ∨ c = '}' ∨ c = 'e' ∨ c = 'l' ∨ c.isDigit = true

/-- Raw model output used by the end-to-end witnesses: a well-formed
envelope selecting the `echo` action. -/
def rawEnvEcho : String :=
  "\x7b\"actionName\":\"echo\",\"parameters\":\x7b\x7d,\"response\":\"done\"\x7d"

/-- Witness agent: one trivially validating action whose handler returns a
number that must never surface in the run result. -/
def echoAgent : Agent :=
  { actions := [("echo",
      { kind := .zOther, parse := fun v => .ok v,
        call := fun _ => .ok (.num "42") })],
    mockChatResponse := some rawEnvEcho }

/-- Raw model output naming an unregistered action. -/
def rawEnvMissing : String :=
  "\x7b\"actionName\":\"missing\",\"parameters\":\x7b\x7d,\"response\":\"done\"\x7d"

/-- Witness agent with an empty registry. -/
def emptyAgent : Agent :=
  { actions := [], mockChatResponse := some rawEnvMissing }

/-- Raw model output naming `toString` — not a registered key, but a property
every JS object inherits from `Object.prototype`. -/
def rawEnvToString : String :=
  "\x7b\"actionName\":\"toString\",\"parameters\":\x7b\x7d,\"response\":\"done\"\x7d"

/-- Agent with an empty registry receiving the `toString` envelope. -/
def protoAgent : Agent :=
  { actions := [], mockChatResponse := some rawEnvToString }

/-- Witness tree from the spec example: `calculator.add` is a leaf two levels
deep, `["calculator","add"]` is its canonical path. -/
def calcTree : NestedTree Nat :=
  .branch [("weather", .branch [("getCurrentWeather", .leaf 7)]),
           ("calculator", .branch [("add", .leaf 3)])]

/-- Raw model output whose `parameters` field is JSON `null`: not a JSON
object, yet `typeof null === "object"` lets it through the structural check. -/
def rawEnvNullParams : String :=
  "\x7b\"actionName\":\"a\",\"parameters\":null,\"response\":\"ok\"\x7d"

/-- Raw model output missing the `response` field. -/
def rawEnvNoResponse : String :=
  "\x7b\"actionName\":\"a\",\"parameters\":\x7b\x7d\x7d"

/-- A well-formed JSON envelope body, used to witness the fence property. -/
def jsonBodyW : String :=
  "\x7b\"actionName\":\"a\",\"parameters\":\x7b\x7d,\"response\":\"r\"\x7d"

/-- Store fixture for the frame-property witness: one object at address 0. -/
def demoStore : Store := [[("a", JSValue.str "1")]]

theorem isPrefixOf_decomp {p l : List Char} (h : p.isPrefixOf l = true) :
    l = p ++ l.drop p.length := by
  induction p generalizing l with
  | nil => simp
  | cons a p' ih =>
    cases l with
    | nil => simp [List.isPrefixOf] at h
    | cons b l' =>
      simp only [List.isPrefixOf, Bool.and_eq_true, beq_iff_eq] at h
      obtain ⟨rfl, h2⟩ := h
      simp only [List.cons_append, List.length_cons, List.drop_succ_cons]
      exact congrArg (a :: ·) (ih h2)

theorem isPrefixOf_self_append (p l : List Char) : p.isPrefixOf (p ++ l) = true := by
  induction p with
  | nil => simp [List.isPrefixOf]
  | cons a p' ih => simp [List.isPrefixOf, ih]

theorem isSuffixOf_decomp {p l : List Char} (h : p.isSuffixOf l = true) :
    ∃ pre, l = pre ++ p := by
  unfold List.isSuffixOf at h
  have h2 := isPrefixOf_decomp h
  refine ⟨(l.reverse.drop p.length).reverse, ?_⟩
  have := congrArg List.reverse h2
  simpa using this

theorem isSuffixOf_append_self (p l : List Char) : p.isSuffixOf (l ++ p) = true := by
  unfold List.isSuffixOf
  have h := isPrefixOf_self_append p.reverse l.reverse
  rw [← List.reverse_append] at h
  exact h

theorem skipWs_decomp (l : List Char) :
    ∃ ws, l = ws ++ skipWs l ∧ ∀ c ∈ ws, isWs c = true := by
  induction l with
  | nil => exact ⟨[], rfl, by simp⟩
  | cons c t ih =>
    by_cases hc : isWs c = true
    · obtain ⟨ws, hws, hall⟩ := ih
      refine ⟨c :: ws, ?_, ?_⟩
      · simp [skipWs, hc]; exact hws
      · intro x hx
        rcases List.mem_cons.mp hx with rfl | hx
        · exact hc
        · exact hall x hx
    · refine ⟨[], ?_, by simp⟩
      simp [skipWs, hc]

theorem skipWs_nil_all {l : List Char} (h : skipWs l = []) :
    ∀ c ∈ l, isWs c = true := by
  induction l with
  | nil => simp
  | cons c t ih =>
    intro x hx
    by_cases hc : isWs c = true
    · rcases List.mem_cons.mp hx with rfl | hx
      · exact hc
      · exact ih (by simpa [skipWs, hc] using h) x hx
    · simp [skipWs, hc] at h

theorem spanDigits_decomp (l : List Char) : l = (spanDigits l).1 ++ (spanDigits l).2 := by
  simp [spanDigits]

theorem spanDigits_all (l : List Char) : ∀ c ∈ (spanDigits l).1, c.isDigit = true := by
  intro c hc
  exact List.mem_takeWhile_imp hc

theorem spanDigits_last {l : List Char} (h : (spanDigits l).1 ≠ []) :
    ∃ init d, (spanDigits l).1 = init ++ [d] ∧ d.isDigit = true := by
  rcases List.eq_nil_or_concat (spanDigits l).1 with h0 | ⟨init, d, hd⟩
  · exact absurd h0 h
  · rw [List.concat_eq_append] at hd
    refine ⟨init, d, hd, ?_⟩
    apply spanDigits_all l
    rw [hd]; simp

theorem spanDigits_cons_digit {c : Char} {t : List Char} (h : c.isDigit = true) :
    (spanDigits (c :: t)).1 = c :: (spanDigits t).1 ∧
    (spanDigits (c :: t)).2 = (spanDigits t).2 := by
  constructor <;> simp [spanDigits, List.takeWhile_cons, List.dropWhile_cons, h]

theorem goodClose_not_ws {c : Char} (h : goodClose c) : isWs c = false := by
  rcases h with rfl | rfl | rfl | rfl | rfl | hd
  · decide
  · decide
  · decide
  · decide
  · decide
  · by_contra hw
    simp only [Bool.not_eq_false] at hw
    simp only [isWs, Bool.or_eq_true, decide_eq_true_eq] at hw
    rcases hw with ((rfl | rfl) | rfl) | rfl <;> simp [Char.isDigit] at hd

theorem goodClose_not_tick {c : Char} (h : goodClose c) : c ≠ tickChar := by
  rcases h with rfl | rfl | rfl | rfl | rfl | hd
  · decide
  · decide
  · decide
  · decide
  · decide
  · intro he
    subst he
    simp [Char.isDigit, tickChar] at hd

theorem parseExpPart_closing {lex r : List Char} {v : JSValue} {rest : List Char}
    (h : parseExpPart lex r = some (v, rest)) :
    rest = r ∨ ∃ mid d, r = mid ++ d :: rest ∧ d.isDigit = true := by
  cases r with
  | nil =>
    simp only [parseExpPart, Option.some.injEq, Prod.mk.injEq] at h
    exact Or.inl h.2.symm
  | cons c t =>
    simp only [parseExpPart] at h
    split_ifs at h with he
    · cases t with
      | nil => simp at h
      | cons s t2 =>
        simp only [] at h
        split_ifs at h with hs h1 h2
        · have hrest : (spanDigits t2).2 = rest := congrArg Prod.snd (Option.some.inj h)
          obtain ⟨init, d, hds, hdig⟩ := spanDigits_last h1
          have ht2 := spanDigits_decomp t2
          rw [hds, hrest] at ht2
          refine Or.inr ⟨c :: s :: init, d, ?_, hdig⟩
          rw [ht2]
          simp
        · have hrest : (spanDigits (s :: t2)).2 = rest := congrArg Prod.snd (Option.some.inj h)
          obtain ⟨init, d, hds, hdig⟩ := spanDigits_last h2
          have hst := spanDigits_decomp (s :: t2)
          rw [hds, hrest] at hst
          refine Or.inr ⟨c :: init, d, ?_, hdig⟩
          rw [hst]
          simp
    · have hrest : c :: t = rest := congrArg Prod.snd (Option.some.inj h)
      exact Or.inl hrest.symm

theorem parseFracPart_closing {lex r : List Char} {v : JSValue} {rest : List Char}
    (h : parseFracPart lex r = some (v, rest)) :
    rest = r ∨ ∃ mid d, r = mid ++ d :: rest ∧ d.isDigit = true := by
  cases r with
  | nil =>
    simp only [parseFracPart] at h
    rcases parseExpPart_closing h with h1 | ⟨mid, d, hmid, -⟩
    · exact Or.inl h1
    · simp at hmid
  | cons c t =>
    simp only [parseFracPart] at h
    split_ifs at h with hc h1
    · rcases parseExpPart_closing h with hrest | ⟨mid, d, hmid, hdig⟩
      · obtain ⟨init, d, hds, hdig⟩ := spanDigits_last h1
        have ht := spanDigits_decomp t
        rw [hds, ← hrest] at ht
        refine Or.inr ⟨c :: init, d, ?_, hdig⟩
        rw [ht]
        simp
      · have ht := spanDigits_decomp t
        refine Or.inr ⟨c :: (spanDigits t).1 ++ mid, d, ?_, hdig⟩
        conv_lhs => rw [ht, hmid]
        simp
    · rcases parseExpPart_closing h with hrest | ⟨mid, d, hmid, hdig⟩
      · exact Or.inl hrest
      · exact Or.inr ⟨mid, d, hmid, hdig⟩

theorem parseNum_closing {l : List Char} {v : JSValue} {rest : List Char}
    (h : parseNum l = some (v, rest)) :
    ∃ pre c, l = pre ++ c :: rest ∧ c.isDigit = true := by
  cases l with
  | nil => simp [parseNum] at h
  | cons c t =>
    simp only [parseNum] at h
    split_ifs at h with hneg h0 hdig
    · cases t with
      | nil => simp at h
      | cons c2 t2 =>
        simp only [] at h
        split_ifs at h with h20 h2d
        · rcases parseFracPart_closing h with hrest | ⟨mid, d, hmid, hd2⟩
          · subst hneg
            subst h20
            refine ⟨['-'], '0', ?_, by decide⟩
            rw [hrest]
            simp
          · subst hneg
            subst h20
            refine ⟨'-' :: '0' :: mid, d, ?_, hd2⟩
            rw [hmid]
            simp
        · rcases parseFracPart_closing h with hrest | ⟨mid, d, hmid, hd2⟩
          · have hne : (spanDigits (c2 :: t2)).1 ≠ [] := by
              rw [(spanDigits_cons_digit (t := t2) h2d).1]
              simp
            obtain ⟨init, d, hds, hd2⟩ := spanDigits_last hne
            have hct := spanDigits_decomp (c2 :: t2)
            rw [hds, ← hrest] at hct
            subst hneg
            refine ⟨'-' :: init, d, ?_, hd2⟩
            rw [hct]
            simp
          · subst hneg
            have hct := spanDigits_decomp (c2 :: t2)
            refine ⟨'-' :: (spanDigits (c2 :: t2)).1 ++ mid, d, ?_, hd2⟩
            conv_lhs => rw [hct, hmid]
            simp
    · rcases parseFracPart_closing h with hrest | ⟨mid, d, hmid, hd2⟩
      · subst h0
        refine ⟨[], '0', ?_, by decide⟩
        rw [hrest]
        simp
      · subst h0
        refine ⟨'0' :: mid, d, ?_, hd2⟩
        rw [hmid]
        simp
    · rcases parseFracPart_closing h with hrest | ⟨mid, d, hmid, hd2⟩
      · have hne : (spanDigits (c :: t)).1 ≠ [] := by
          rw [(spanDigits_cons_digit (t := t) hdig).1]
          simp
        obtain ⟨init, d, hds, hd2⟩ := spanDigits_last hne
        have hct := spanDigits_decomp (c :: t)
        rw [hds, ← hrest] at hct
        refine ⟨init, d, ?_, hd2⟩
        rw [hct]
        simp
      · have hct := spanDigits_decomp (c :: t)
        refine ⟨(spanDigits (c :: t)).1 ++ mid, d, ?_, hd2⟩
        conv_lhs => rw [hct, hmid]
        simp

theorem parseStrBody_closing_aux :
    ∀ (n : Nat) (t : List Char) (s : String) (r : List Char), t.length ≤ n →
      parseStrBody t = some (s, r) → ∃ pre, t = pre ++ '"' :: r := by
  intro n
  induction n with
  | zero =>
    intro t s r hlen h
    have ht : t = [] := List.eq_nil_of_length_eq_zero (Nat.le_zero.mp hlen)
    subst ht
    simp [parseStrBody] at h
  | succ n ih =>
    intro t s r hlen h
    cases t with
    | nil => simp [parseStrBody] at h
    | cons c t' =>
      unfold parseStrBody at h
      split_ifs at h with hq hb hctl
      · have hr : t' = r := congrArg Prod.snd (Option.some.inj h)
        subst hq hr
        exact ⟨[], rfl⟩
      · cases t' with
        | nil => simp at h
        | cons e t2 =>
          simp only [] at h
          split_ifs at h with hu
          · rcases t2 with _ | ⟨h1, _ | ⟨h2, _ | ⟨h3, _ | ⟨h4, t3⟩⟩⟩⟩
            · simp at h
            · simp at h
            · simp at h
            · simp at h
            cases hx : hex4Val h1 h2 h3 h4 with
            | none =>
              simp only [hx] at h
              exact Option.noConfusion h
            | some uc =>
              simp only [hx, Option.map_eq_some'] at h
              obtain ⟨pr, hps, hpr⟩ := h
              have hr : pr.2 = r := congrArg Prod.snd hpr
              have hlen3 : t3.length ≤ n := by
                simp only [List.length_cons] at hlen
                omega
              obtain ⟨pre, hpre⟩ := ih t3 pr.1 pr.2 hlen3 (by simpa using hps)
              subst hb hu
              refine ⟨'\\' :: 'u' :: h1 :: h2 :: h3 :: h4 :: pre, ?_⟩
              rw [hpre, hr]
              simp
          · cases hec : escChar e with
            | none =>
              simp only [hec] at h
              exact Option.noConfusion h
            | some ec =>
              simp only [hec, Option.map_eq_some'] at h
              obtain ⟨pr, hps, hpr⟩ := h
              have hr : pr.2 = r := congrArg Prod.snd hpr
              have hlen2 : t2.length ≤ n := by
                simp only [List.length_cons] at hlen
                omega
              obtain ⟨pre, hpre⟩ := ih t2 pr.1 pr.2 hlen2 (by simpa using hps)
              subst hb
              refine ⟨'\\' :: e :: pre, ?_⟩
              rw [hpre, hr]
              simp
      · rw [Option.map_eq_some'] at h
        obtain ⟨a, hps, hpr⟩ := h
        have hr : a.2 = r := congrArg Prod.snd hpr
        have hlen2 : t'.length ≤ n := by
          simp only [List.length_cons] at hlen
          omega
        obtain ⟨pre, hpre⟩ := ih t' a.1 a.2 hlen2 (by simpa using hps)
        refine ⟨c :: pre, ?_⟩
        rw [hpre, hr]
        simp

theorem parseStrBody_closing {t : List Char} {s : String} {r : List Char}
    (h : parseStrBody t = some (s, r)) : ∃ pre, t = pre ++ '"' :: r :=
  parseStrBody_closing_aux t.length t s r le_rfl h

theorem expectLit_decomp {lit : List Char} {v0 v : JSValue} {t rest : List Char}
    (h : expectLit lit v0 t = some (v, rest)) : t = lit ++ rest := by
  unfold expectLit at h
  split_ifs at h with hp
  · have hd := isPrefixOf_decomp hp
    have hr : t.drop lit.length = rest := congrArg Prod.snd (Option.some.inj h)
    rw [← hr]
    exact hd

theorem parser_closing (f : Nat) :
    (∀ l v rest, parseVal f l = some (v, rest) →
      ∃ pre c, l = pre ++ c :: rest ∧ goodClose c) ∧
    (∀ l acc v rest, parseElems f l acc = some (v, rest) →
      ∃ pre, l = pre ++ ']' :: rest) ∧
    (∀ l acc v rest, parseMembers f l acc = some (v, rest) →
      ∃ pre, l = pre ++ '}' :: rest) := by
  induction f with
  | zero =>
    refine ⟨?_, ?_, ?_⟩
    · intro l v rest h
      simp [parseVal] at h
    · intro l acc v rest h
      simp [parseElems] at h
    · intro l acc v rest h
      simp [parseMembers] at h
  | succ f ih =>
    obtain ⟨ihV, ihE, ihM⟩ := ih
    refine ⟨?_, ?_, ?_⟩
    · -- parseVal
      intro l v rest h
      cases l with
      | nil => simp [parseVal] at h
      | cons c t =>
        simp only [parseVal] at h
        split_ifs at h with hn ht hf hq harr hobj hnum
        · have hd := expectLit_decomp h
          subst hn
          refine ⟨['n', 'u', 'l'], 'l', ?_, by simp [goodClose]⟩
          rw [hd]
          simp
        · have hd := expectLit_decomp h
          subst ht
          refine ⟨['t', 'r', 'u'], 'e', ?_, by simp [goodClose]⟩
          rw [hd]
          simp
        · have hd := expectLit_decomp h
          subst hf
          refine ⟨['f', 'a', 'l', 's'], 'e', ?_, by simp [goodClose]⟩
          rw [hd]
          simp
        · cases hsb : parseStrBody t with
          | none =>
            simp only [hsb] at h
            exact Option.noConfusion h
          | some pr =>
            rcases pr with ⟨s1, r1⟩
            simp only [hsb] at h
            have hr : r1 = rest := congrArg Prod.snd (Option.some.inj h)
            obtain ⟨preS, hpreS⟩ := parseStrBody_closing hsb
            subst hq hr
            refine ⟨'"' :: preS, '"', ?_, by simp [goodClose]⟩
            rw [hpreS]
            simp
        · obtain ⟨ws, hws, -⟩ := skipWs_decomp t
          cases hsk : skipWs t with
          | nil =>
            simp only [hsk] at h
            exact Option.noConfusion h
          | cons c2 r =>
            rw [hsk] at hws
            simp only [hsk] at h
            split_ifs at h with hc2
            · have hr : r = rest := congrArg Prod.snd (Option.some.inj h)
              subst harr hc2 hr
              refine ⟨'[' :: ws, ']', ?_, by simp [goodClose]⟩
              rw [hws]
              simp
            · obtain ⟨pre2, hpre2⟩ := ihE (c2 :: r) [] v rest h
              subst harr
              refine ⟨'[' :: ws ++ pre2, ']', ?_, by simp [goodClose]⟩
              rw [hws, hpre2]
              simp
        · obtain ⟨ws, hws, -⟩ := skipWs_decomp t
          cases hsk : skipWs t with
          | nil =>
            simp only [hsk] at h
            exact Option.noConfusion h
          | cons c2 r =>
            rw [hsk] at hws
            simp only [hsk] at h
            split_ifs at h with hc2
            · have hr : r = rest := congrArg Prod.snd (Option.some.inj h)
              subst hobj hc2 hr
              refine ⟨'{' :: ws, '}', ?_, by simp [goodClose]⟩
              rw [hws]
              simp
            · obtain ⟨pre2, hpre2⟩ := ihM (c2 :: r) [] v rest h
              subst hobj
              refine ⟨'{' :: ws ++ pre2, '}', ?_, by simp [goodClose]⟩
              rw [hws, hpre2]
              simp
        · obtain ⟨pre, d, hpre, hdig⟩ := parseNum_closing h
          exact ⟨pre, d, hpre, Or.inr (Or.inr (Or.inr (Or.inr (Or.inr hdig))))⟩
    · -- parseElems
      intro l acc v rest h
      simp only [parseElems] at h
      cases hpv : parseVal f l with
      | none =>
        simp only [hpv] at h
        exact Option.noConfusion h
      | some p =>
        rcases p with ⟨v1, r1⟩
        simp only [hpv] at h
        obtain ⟨pre1, c1, hpre1, -⟩ := ihV l v1 r1 hpv
        obtain ⟨ws1, hws1, -⟩ := skipWs_decomp r1
        cases hsk : skipWs r1 with
        | nil =>
          simp only [hsk] at h
          exact Option.noConfusion h
        | cons c2 r2 =>
          rw [hsk] at hws1
          simp only [hsk] at h
          split_ifs at h with hcm hcb
          · obtain ⟨pre3, hpre3⟩ := ihE (skipWs r2) (acc ++ [v1]) v rest h
            obtain ⟨ws2, hws2, -⟩ := skipWs_decomp r2
            rw [hpre3] at hws2
            subst hcm
            refine ⟨pre1 ++ c1 :: ws1 ++ ',' :: ws2 ++ pre3, ?_⟩
            rw [hpre1, hws1, hws2]
            simp
          · have hr : r2 = rest := congrArg Prod.snd (Option.some.inj h)
            subst hcb hr
            refine ⟨pre1 ++ c1 :: ws1, ?_⟩
            rw [hpre1, hws1]
            simp
    · -- parseMembers
      intro l acc v rest h
      cases l with
      | nil => simp [parseMembers] at h
      | cons c0 t =>
        simp only [parseMembers] at h
        split_ifs at h with hc0
        · cases hsb : parseStrBody t with
          | none =>
            simp only [hsb] at h
            exact Option.noConfusion h
          | some pr =>
            rcases pr with ⟨k, r1⟩
            simp only [hsb] at h
            obtain ⟨preS, hpreS⟩ := parseStrBody_closing hsb
            obtain ⟨ws1, hws1, -⟩ := skipWs_decomp r1
            cases hsk1 : skipWs r1 with
            | nil =>
              simp only [hsk1] at h
              exact Option.noConfusion h
            | cons c1 r2 =>
              rw [hsk1] at hws1
              simp only [hsk1] at h
              split_ifs at h with hc1
              · cases hpv : parseVal f (skipWs r2) with
                | none =>
                  simp only [hpv] at h
                  exact Option.noConfusion h
                | some p =>
                  rcases p with ⟨v1, r3⟩
                  simp only [hpv] at h
                  obtain ⟨pre2, c2, hpre2, -⟩ := ihV (skipWs r2) v1 r3 hpv
                  obtain ⟨ws2, hws2, -⟩ := skipWs_decomp r2
                  rw [hpre2] at hws2
                  obtain ⟨ws3, hws3, -⟩ := skipWs_decomp r3
                  cases hsk3 : skipWs r3 with
                  | nil =>
                    simp only [hsk3] at h
                    exact Option.noConfusion h
                  | cons c3 r4 =>
                    rw [hsk3] at hws3
                    simp only [hsk3] at h
                    split_ifs at h with hcm hcb
                    · obtain ⟨pre4, hpre4⟩ := ihM (skipWs r4) (jsSetField acc k v1) v rest h
                      obtain ⟨ws4, hws4, -⟩ := skipWs_decomp r4
                      rw [hpre4] at hws4
                      subst hc0 hc1 hcm
                      refine ⟨'"' :: preS ++ '"' :: ws1 ++ ':' :: ws2 ++ pre2 ++
                        c2 :: ws3 ++ ',' :: ws4 ++ pre4, ?_⟩
                      rw [hpreS, hws1, hws2, hws3, hws4]
                      simp
                    · have hr : r4 = rest := congrArg Prod.snd (Option.some.inj h)
                      subst hc0 hc1 hcb hr
                      refine ⟨'"' :: preS ++ '"' :: ws1 ++ ':' :: ws2 ++ pre2 ++
                        c2 :: ws3, ?_⟩
                      rw [hpreS, hws1, hws2, hws3]
                      simp

theorem parseVal_tick (f : Nat) (t : List Char) :
    parseVal f (tickChar :: t) = none := by
  cases f with
  | zero => rfl
  | succ g =>
    simp only [parseVal]
    split_ifs with h1 h2 h3 h4 h5 h6 h7
    · exact absurd h1 (by decide)
    · exact absurd h2 (by decide)
    · exact absurd h3 (by decide)
    · exact absurd h4 (by decide)
    · exact absurd h5 (by decide)
    · exact absurd h6 (by decide)
    · exact absurd h7 (by decide)
    · rfl

theorem skipWs_tick (t : List Char) : skipWs (tickChar :: t) = tickChar :: t := by
  simp [skipWs, isWs, tickChar]

theorem fenceJson_eq : fenceJson = tickChar :: "``json\n".data := by decide

theorem ticks3_eq : ticks3 = [tickChar, tickChar, tickChar] := by decide

theorem parseJsonL_not_fence {l : List Char} {v : JSValue}
    (h : parseJsonL l = some v) : fenceJson.isPrefixOf l = false := by
  by_contra hb
  simp only [Bool.not_eq_false] at hb
  have hd := isPrefixOf_decomp hb
  rw [fenceJson_eq] at hd
  unfold parseJsonL at h
  rw [hd] at h
  rw [List.cons_append] at h
  rw [skipWs_tick, parseVal_tick] at h
  exact Option.noConfusion h

theorem skipWs_eq_nil_all {l : List Char} (h : skipWs l = []) :
    ∀ c ∈ l, isWs c = true := skipWs_nil_all h

theorem parseJsonL_not_ticks {l : List Char} {v : JSValue}
    (h : parseJsonL l = some v) : ticks3.isSuffixOf l = false := by
  by_contra hb
  simp only [Bool.not_eq_false] at hb
  obtain ⟨initl, hinit⟩ := isSuffixOf_decomp hb
  rw [ticks3_eq] at hinit
  unfold parseJsonL at h
  cases hpv : parseVal (4 * l.length + 4) (skipWs l) with
  | none => rw [hpv] at h; exact Option.noConfusion h
  | some p =>
    rcases p with ⟨v1, rest⟩
    rw [hpv] at h
    simp only [] at h
    split_ifs at h with hrest
    have hrall : ∀ c ∈ rest, isWs c = true := skipWs_nil_all hrest
    obtain ⟨pre, cEnd, hdec, hclose⟩ := (parser_closing (4 * l.length + 4)).1 _ _ _ hpv
    obtain ⟨ws0, hws0, hws0all⟩ := skipWs_decomp l
    rw [hdec] at hws0
    have hlast : l.getLast? = some tickChar := by
      rw [hinit]
      have : initl ++ [tickChar, tickChar, tickChar] =
          (initl ++ [tickChar, tickChar]) ++ [tickChar] := by simp
      rw [this, List.getLast?_concat]
    cases hre : rest with
    | nil =>
      subst hre
      have hl2 : l = (ws0 ++ pre) ++ [cEnd] := by rw [hws0]; simp
      rw [hl2, List.getLast?_concat] at hlast
      have : cEnd = tickChar := Option.some.inj hlast
      exact goodClose_not_tick hclose this
    | cons r0 rtail =>
      rcases List.eq_nil_or_concat rest with h0 | ⟨rinit, rlast, hrl⟩
      · rw [hre] at h0
        exact absurd h0 (by simp)
      rw [List.concat_eq_append] at hrl
      have hl2 : l = (ws0 ++ pre ++ cEnd :: rinit) ++ [rlast] := by
        rw [hws0, hrl]; simp
      rw [hl2, List.getLast?_concat] at hlast
      have hteq : rlast = tickChar := Option.some.inj hlast
      have hwsr : isWs rlast = true := by
        apply hrall
        rw [hrl]; simp
      rw [hteq] at hwsr
      exact absurd hwsr (by decide)

theorem stripFences_id {l : List Char} (h1 : fenceJson.isPrefixOf l = false)
    (h2 : ticks3.isSuffixOf l = false) : stripFences l = l := by
  unfold stripFences
  simp [h1, h2]

theorem data_wrapFence (s : String) :
    (wrapFence s).data = fenceJson ++ s.data ++ '\n' :: ticks3 := by
  unfold wrapFence
  rw [String.data_append, String.data_append]
  rfl

theorem stripFences_wrap (s : String) :
    stripFences (wrapFence s).data = s.data ++ ['\n'] := by
  rw [data_wrapFence]
  unfold stripFences
  rw [List.append_assoc]
  rw [isPrefixOf_self_append]
  simp only [if_true]
  rw [List.drop_left]
  have hsfx : ticks3.isSuffixOf (s.data ++ '\n' :: ticks3) = true := by
    have : s.data ++ '\n' :: ticks3 = (s.data ++ ['\n']) ++ ticks3 := by simp
    rw [this]
    exact isSuffixOf_append_self ticks3 (s.data ++ ['\n'])
  rw [hsfx]
  simp only [if_true]
  have hlen : (s.data ++ '\n' :: ticks3).length - ticks3.length =
      (s.data ++ ['\n']).length := by
    simp [ticks3_eq]
  rw [hlen]
  have : s.data ++ '\n' :: ticks3 = (s.data ++ ['\n']) ++ ticks3 := by simp
  rw [this, List.take_left]

theorem trimJs_append_newline (l : List Char) : trimJs (l ++ ['\n']) = trimJs l := by
  unfold trimJs
  congr 1
  congr 1
  rw [List.reverse_append]
  simp only [List.reverse_cons, List.reverse_nil, List.nil_append, List.singleton_append]
  unfold dropJsWs
  rw [List.dropWhile_cons]
  simp [isJsWs]

theorem cleanResponse_wrap_of_json {s : String} {v : JSValue}
    (h : parseJsonL s.data = some v) :
    cleanResponse (wrapFence s) = cleanResponse s ∧ stripFences s.data = s.data := by
  have hid : stripFences s.data = s.data :=
    stripFences_id (parseJsonL_not_fence h) (parseJsonL_not_ticks h)
  constructor
  · unfold cleanResponse
    rw [stripFences_wrap, hid, trimJs_append_newline]
  · exact hid

theorem parseEnvelope_ok_iff (r : String) (env : Envelope) :
    parseEnvelope r = .ok env ↔ parseEnvelopeCore (cleanResponse r) = some env := by
  unfold parseEnvelope
  cases h : parseEnvelopeCore (cleanResponse r) with
  | some e => simp
  | none => simp

/-- C5: for every JSON body text (a string the JSON parser accepts), the model
output obtained by wrapping it in a leading ```json fence and a trailing ```
fence parses to exactly the same envelope as the unwrapped body, and the
stripping step removes nothing from the body itself (fences are stripped only
at the very start and very end of the string). -/
theorem c5_fence_wrapped_parses_identically (s : String) (v : JSValue)
    (h : parseJsonL s.data = some v) :
    (∀ env : Envelope,
      parseEnvelope (wrapFence s) = .ok env ↔ parseEnvelope s = .ok env) ∧
    stripFences s.data = s.data := by
  obtain ⟨hc, hid⟩ := cleanResponse_wrap_of_json h
  refine ⟨?_, hid⟩
  intro env
  rw [parseEnvelope_ok_iff, parseEnvelope_ok_iff, hc]

/-- C5 witness: a concrete well-formed envelope body; it parses as JSON, the
fenced and unfenced forms parse to the same envelope, and stripping changes
nothing on the unfenced body. -/
theorem c5_witness :
    parseJsonL jsonBodyW.data =
      some (.obj [("actionName", .str "a"), ("parameters", .obj []),
                  ("response", .str "r")]) ∧
    (parseEnvelope (wrapFence jsonBodyW) = .ok ⟨"a", .obj [], "r"⟩ ↔
      parseEnvelope jsonBodyW = .ok ⟨"a", .obj [], "r"⟩) ∧
    stripFences jsonBodyW.data = jsonBodyW.data := by
  have hp : parseJsonL jsonBodyW.data =
      some (.obj [("actionName", .str "a"), ("parameters", .obj []),
                  ("response", .str "r")]) := rfl
  have h := c5_fence_wrapped_parses_identically jsonBodyW _ hp
  exact ⟨hp, h.1 ⟨"a", .obj [], "r"⟩, h.2⟩

theorem parseEnvelopeCore_none_of_check {clean : List Char} {v : JSValue}
    (hp : parseJsonL clean = some v) (hs : envStructCheck v = false) :
    parseEnvelopeCore clean = none := by
  cases v with
  | obj fs =>
    unfold parseEnvelopeCore
    rw [hp]
    simp only [envStructCheck] at hs
    simp only []
    split
    · next _ _ _ an p rs h1 h2 h3 =>
      rw [h1, h2, h3] at hs
      simp only [] at hs
      simp [hs]
    · rfl
  | undefined => unfold parseEnvelopeCore; rw [hp]
  | null => unfold parseEnvelopeCore; rw [hp]
  | bool b => unfold parseEnvelopeCore; rw [hp]
  | num n => unfold parseEnvelopeCore; rw [hp]
  | str s => unfold parseEnvelopeCore; rw [hp]
  | date ok src => unfold parseEnvelopeCore; rw [hp]
  | arr xs => unfold parseEnvelopeCore; rw [hp]

/-- C3 counterexample: a raw model text whose `parameters` field is JSON
`null` — not a JSON object — passes the structural check (JS `typeof null ===
"object"`) and envelope parsing succeeds instead of failing with
`InvalidEnvelope`. -/
theorem c3_counterexample :
    parseEnvelope rawEnvNullParams = .ok ⟨"a", .null, "ok"⟩ ∧
    envStructCheck (.obj [("actionName", .str "a"), ("parameters", .null),
      ("response", .str "ok")]) = true :=
  ⟨rfl, rfl⟩

/-- C3 as amended: with the structural check read as the source performs it —
`typeof`-based, so `null`, arrays and date objects count as objects — every
raw model text whose parsed JSON fails that check makes envelope parsing fail
with the `InvalidEnvelope` error carrying the raw text, and never yields an
envelope. -/
theorem c3_struct_check_fails_invalid_envelope (raw : String) (v : JSValue)
    (hp : parseJsonL (cleanResponse raw) = some v)
    (hs : envStructCheck v = false) :
    parseEnvelope raw = .error (invalidMsg raw) := by
  unfold parseEnvelope
  rw [parseEnvelopeCore_none_of_check hp hs]

/-- C3 witness: a raw text missing the `response` field fails the structural
check and envelope parsing fails with the raw text attached. -/
theorem c3_witness :
    parseJsonL (cleanResponse rawEnvNoResponse) =
      some (.obj [("actionName", .str "a"), ("parameters", .obj [])]) ∧
    envStructCheck (.obj [("actionName", .str "a"), ("parameters", .obj [])]) = false ∧
    parseEnvelope rawEnvNoResponse = .error (invalidMsg rawEnvNoResponse) := by
  refine ⟨rfl, rfl, ?_⟩
  exact c3_struct_check_fails_invalid_envelope rawEnvNoResponse _ rfl rfl

/-- C1: for every registered flat action and every envelope that parses,
whose (preprocessed) parameters validate against the action's schema, and
whose handler completes without throwing, `run` returns exactly the
envelope's `response` string; the handler's return value `v` is universally
quantified, so it never influences the result. -/
theorem c1_run_returns_envelope_response
    (ag : Agent) (net : Option String) (input : String)
    (env : Envelope) (action : ActionDefinition) (validated v : JSValue)
    (h1 : parseEnvelope (chatOutput ag.mockChatResponse net).1 = .ok env)
    (h2 : findActionByName ag.actions env.actionName = .found action)
    (h3 : action.parse (preprocessParameters env.parameters action.kind) =
      .ok validated)
    (h4 : action.call validated = .ok v) :
    (run ag net input).result = .ok env.response := by
  unfold run
  simp only [h1, h2, h3, h4]

/-- C1 witness: the `echo` agent's handler returns the number 42, yet `run`
returns the envelope's `"done"`. -/
theorem c1_witness : (run echoAgent none "hi").result = .ok "done" :=
  c1_run_returns_envelope_response echoAgent none "hi"
    ⟨"echo", .obj [], "done"⟩
    { kind := .zOther, parse := fun v => .ok v, call := fun _ => .ok (.num "42") }
    (.obj []) (.num "42") rfl rfl rfl rfl

/-- C4 counterexample: `toString` is not a key of the (empty) registry, yet
`this.actions["toString"] ?? null` returns the inherited
`Object.prototype.toString`, so `run` does not fail with the action-not-found
error — it fails with the wrapped `TypeError` from `action.schema.parse` —
though still without invoking any handler. -/
theorem c4_counterexample :
    protoAgent.actions = [] ∧
    (run protoAgent none "hi").result = .error (runWrap undefinedParseError) ∧
    (run protoAgent none "hi").result ≠
      .error (runWrap ("Error: Action \"toString\" not found.")) ∧
    (run protoAgent none "hi").invoked = [] :=
  ⟨rfl, rfl, fun h => absurd (Except.error.inj h) (by decide), rfl⟩

/-- C4 as amended: for every successfully parsed envelope whose `actionName`
is not a key of the registered actions, no handler is ever invoked during the
call; and when the name is also not one of the property names inherited from
`Object.prototype`, `run` fails with the wrapped action-not-found error (an
inherited name instead crashes the pipeline with a wrapped `TypeError`
before any handler could run). -/
theorem c4_action_not_found
    (ag : Agent) (net : Option String) (input : String) (env : Envelope)
    (h1 : parseEnvelope (chatOutput ag.mockChatResponse net).1 = .ok env)
    (h2 : findActionByName ag.actions env.actionName = .notFound ∨
      findActionByName ag.actions env.actionName = .inherited) :
    (run ag net input).invoked = [] ∧
    (findActionByName ag.actions env.actionName = .notFound →
      (run ag net input).result =
        .error (runWrap ("Error: Action \"" ++ env.actionName ++ "\" not found."))) := by
  rcases h2 with h2 | h2
  · unfold run
    simp only [h1, h2]
    exact ⟨trivial, fun _ => trivial⟩
  · unfold run
    simp only [h1, h2]
    refine ⟨trivial, ?_⟩
    intro hn
    exact absurd hn (fun hx => LookupResult.noConfusion hx)

/-- C4 witness: an agent with an empty registry receiving an envelope for
`missing`, a name that is neither registered nor inherited. -/
theorem c4_witness :
    (run emptyAgent none "hi").invoked = [] ∧
    (run emptyAgent none "hi").result =
      .error (runWrap ("Error: Action \"missing\" not found.")) := by
  have h := c4_action_not_found emptyAgent none "hi" ⟨"missing", .obj [], "done"⟩
    rfl (Or.inl rfl)
  exact ⟨h.1, h.2 rfl⟩

/-- C2: in the nested registry variant (modelled from the spec, the nested
lookup being absent from `src/`), whenever the recursive depth-first flat
search finds a leaf registered under a single segment — at any depth — the
single-segment lookup returns exactly that leaf. -/
theorem c2_single_segment_flat_search {α : Type} (t : NestedTree α)
    (seg : String) (a : α) (h : flatFind seg t = some a) :
    lookupTree t [seg] = some a := by
  simp only [lookupTree, h]

/-- C2 witness: `lookup(["add"])` finds the `calculator.add` leaf even though
`["calculator","add"]` is the canonical path, which also resolves. -/
theorem c2_witness :
    flatFind "add" calcTree = some 3 ∧
    lookupTree calcTree ["add"] = some 3 ∧
    lookupTree calcTree ["calculator", "add"] = some 3 := by
  have hf : flatFind "add" calcTree = some 3 := by
    simp [flatFind, flatFindChildren, calcTree]
  exact ⟨hf, c2_single_segment_flat_search calcTree "add" 3 hf, rfl⟩

/-- C6: for every field declared boolean (or optional boolean) whose supplied
value is a string, a case-insensitive match of true/1/yes coerces to `true`,
false/0/no coerces to `false`, and any other string is left unchanged with a
recoverable warning and is subsequently rejected by `z.boolean()` validation.
-/
theorem c6_boolean_coercion (k : ZodKind) (s : String)
    (hk : k = .zBoolean ∨ k = .zOptional .zBoolean) :
    (jsToLower s = "true" ∨ jsToLower s = "1" ∨ jsToLower s = "yes" →
      coerceValueW k (.str s) = (.bool true, false)) ∧
    (jsToLower s = "false" ∨ jsToLower s = "0" ∨ jsToLower s = "no" →
      coerceValueW k (.str s) = (.bool false, false)) ∧
    (¬(jsToLower s = "true" ∨ jsToLower s = "1" ∨ jsToLower s = "yes") →
      ¬(jsToLower s = "false" ∨ jsToLower s = "0" ∨ jsToLower s = "no") →
      coerceValueW k (.str s) = (.str s, true) ∧
      zodAccepts k (.str s) = false) := by
  have hb : ∀ h1 : ¬(jsToLower s = "true" ∨ jsToLower s = "1" ∨ jsToLower s = "yes"),
      ∀ h2 : ¬(jsToLower s = "false" ∨ jsToLower s = "0" ∨ jsToLower s = "no"),
      boolCoerce (.str s) = (.str s, true) := by
    intro h1 h2
    simp only [boolCoerce]
    rw [if_neg h1, if_neg h2]
  rcases hk with rfl | rfl
  · refine ⟨?_, ?_, ?_⟩
    · intro h1
      simp only [coerceValueW, boolCoerce]
      rw [if_pos h1]
    · intro h2
      have h1 : ¬(jsToLower s = "true" ∨ jsToLower s = "1" ∨ jsToLower s = "yes") := by
        rcases h2 with h | h | h <;> rw [h] <;> decide
      simp only [coerceValueW, boolCoerce]
      rw [if_neg h1, if_pos h2]
    · intro h1 h2
      refine ⟨?_, by simp [zodAccepts]⟩
      simp only [coerceValueW]
      exact hb h1 h2
  · refine ⟨?_, ?_, ?_⟩
    · intro h1
      simp only [coerceValueW, boolCoerce]
      rw [if_pos h1]
    · intro h2
      have h1 : ¬(jsToLower s = "true" ∨ jsToLower s = "1" ∨ jsToLower s = "yes") := by
        rcases h2 with h | h | h <;> rw [h] <;> decide
      simp only [coerceValueW, boolCoerce]
      rw [if_neg h1, if_pos h2]
    · intro h1 h2
      refine ⟨?_, by simp [zodAccepts]⟩
      simp only [coerceValueW]
      exact hb h1 h2

/-- C6 witness: `"TRUE"` coerces to `true` (plain boolean), `"No"` to `false`
(optional boolean), `"maybe"` stays a string with a warning and fails
boolean validation. -/
theorem c6_witness :
    coerceValueW .zBoolean (.str "TRUE") = (.bool true, false) ∧
    coerceValueW (.zOptional .zBoolean) (.str "No") = (.bool false, false) ∧
    coerceValueW .zBoolean (.str "maybe") = (.str "maybe", true) ∧
    zodAccepts .zBoolean (.str "maybe") = false := by
  have h1 := (c6_boolean_coercion .zBoolean "TRUE" (Or.inl rfl)).1
    (Or.inl (by decide))
  have h2 := (c6_boolean_coercion (.zOptional .zBoolean) "No" (Or.inr rfl)).2.1
    (Or.inr (Or.inr (by decide)))
  have h3 := (c6_boolean_coercion .zBoolean "maybe" (Or.inl rfl)).2.2
    (by decide) (by decide)
  exact ⟨h1, h2, h3.1, h3.2⟩

/-- C7 counterexample: the claim quantifies over every string, but the empty
string is falsy in JS, so the guard `processed[key] &&` skips array coercion
entirely — no JSON-parse attempt, no comma-split (which would have produced
`[""]`), no warning. -/
theorem c7_counterexample :
    coerceValueW (.zArray .zString) (.str "") = (.str "", false) ∧
    splitCommaTrim "" = [.str ""] ∧
    JSValue.str "" ≠ JSValue.arr [.str ""] :=
  ⟨rfl, rfl, fun h => JSValue.noConfusion h⟩

/-- C7 as amended: for every field declared array (or optional array) whose
supplied value is a non-empty string, coercion first attempts a full JSON
parse and falls back to splitting on commas and trimming each piece; neither
path records a warning (the split fallback cannot throw). -/
theorem c7_array_coercion (k e : ZodKind) (s : String)
    (hk : k = .zArray e ∨ k = .zOptional (.zArray e)) (hs : s ≠ "") :
    coerceValueW k (.str s) = (arrayRepair s, false) ∧
    (parseJsonL s.data = none → arrayRepair s = .arr (splitCommaTrim s)) ∧
    (∀ j, parseJsonL s.data = some j → arrayRepair s = j) := by
  refine ⟨?_, ?_, ?_⟩
  · rcases hk with rfl | rfl <;> simp [coerceValueW, arrayCoerce, hs]
  · intro hn
    simp [arrayRepair, hn]
  · intro j hj
    simp [arrayRepair, hj]

/-- C7 witness: the claim's two instances — a JSON array literal parses via
`JSON.parse`, and a comma-separated string goes through the split fallback. -/
theorem c7_witness :
    coerceValueW (.zArray .zString) (.str "[\"a\",\"b\"]") =
      (.arr [.str "a", .str "b"], false) ∧
    coerceValueW (.zOptional (.zArray .zString)) (.str "a, b, c") =
      (.arr [.str "a", .str "b", .str "c"], false) := by
  constructor
  · rw [(c7_array_coercion (.zArray .zString) .zString _ (Or.inl rfl)
      (by decide)).1]
    rfl
  · rw [(c7_array_coercion (.zOptional (.zArray .zString)) .zString _
      (Or.inr rfl) (by decide)).1]
    rfl

/-- C8 (claim right, code wrong): `new Date(string)` never throws — on an
unparseable string it yields an Invalid Date — so at the failing input
`"not-a-date"` the date coercion replaces the original string with an
Invalid Date object and records no warning, contrary to the code's own
comment ("keep original value if date parsing fails") and the claim; the
subsequent `z.date()` validation does reject the Invalid Date. -/
theorem c8_date_replaced_not_kept :
    coerceValueW .zDate (.str "not-a-date") = (.date false "not-a-date", false) ∧
    JSValue.date false "not-a-date" ≠ .str "not-a-date" ∧
    zodAccepts .zDate (.date false "not-a-date") = false := by
  refine ⟨rfl, fun h => JSValue.noConfusion h, by simp [zodAccepts]⟩

/-- C9 counterexample: the mock check is a JS truthiness test, so an agent
configured with the empty string as `mockChatResponse` still contacts the
network and returns the network's answer, not the configured string. -/
theorem c9_counterexample :
    (chat [] (some "") (some "net")).2 = true ∧
    (chat [] (some "") (some "net")).1 = "net" :=
  ⟨rfl, rfl⟩

/-- C9 as amended: for every message list, a configured non-empty
`mockChatResponse` is returned verbatim and no network call is made. -/
theorem c9_mock_returned_verbatim (messages : List ChatMessage)
    (mock net : Option String) (m : String)
    (hm : mock = some m) (hne : m ≠ "") :
    chat messages mock net = (m, false) := by
  subst hm
  simp [chat, chatOutput, hne]

/-- C9 witness: a concrete non-empty mock. -/
theorem c9_witness : chat [] (some "mock") none = ("mock", false) :=
  c9_mock_returned_verbatim [] (some "mock") none "mock" rfl (by decide)

/-- C10: the store-passing reading of `preprocessParameters` never mutates
the caller's object: the binding at `p` is unchanged afterwards; with an
object schema the result is a fresh object (a new address) holding the
coerced copy of the top-level entries; with any other schema the store is
untouched and the original reference is returned unprocessed. -/
theorem c10_preprocess_no_mutation (σ : Store) (p : Nat) (schema : ZodKind)
    (hp : p < σ.length) :
    storeGet (preprocessParametersStore σ p schema).1 p = storeGet σ p ∧
    (∀ shape, schema = .zObject shape →
      (preprocessParametersStore σ p schema).2 = .newObj σ.length ∧
      σ.length ≠ p ∧
      storeGet (preprocessParametersStore σ p schema).1 σ.length =
        some (preprocessFields shape ((storeGet σ p).getD []))) ∧
    ((∀ shape, schema ≠ .zObject shape) →
      preprocessParametersStore σ p schema = (σ, .orig)) := by
  cases schema with
  | zObject shape =>
    refine ⟨?_, ?_, ?_⟩
    · simp only [preprocessParametersStore, storeGet]
      exact List.getElem?_append_left hp
    · intro shape2 hsh
      obtain rfl : shape = shape2 := by injection hsh
      refine ⟨rfl, by omega, ?_⟩
      simp only [preprocessParametersStore, storeGet]
      exact List.getElem?_concat_length σ _
    · intro hno
      exact absurd rfl (hno shape)
  | zString => exact ⟨rfl, fun _ h => ZodKind.noConfusion h, fun _ => rfl⟩
  | zNumber => exact ⟨rfl, fun _ h => ZodKind.noConfusion h, fun _ => rfl⟩
  | zBoolean => exact ⟨rfl, fun _ h => ZodKind.noConfusion h, fun _ => rfl⟩
  | zDate => exact ⟨rfl, fun _ h => ZodKind.noConfusion h, fun _ => rfl⟩
  | zArray e => exact ⟨rfl, fun _ h => ZodKind.noConfusion h, fun _ => rfl⟩
  | zOptional k => exact ⟨rfl, fun _ h => ZodKind.noConfusion h, fun _ => rfl⟩
  | zOther => exact ⟨rfl, fun _ h => ZodKind.noConfusion h, fun _ => rfl⟩

/-- C10 witness: a one-object store; after preprocessing with an object
schema the original binding at address 0 is untouched and the coerced copy
lives at the fresh address 1; with a non-object schema nothing changes. -/
theorem c10_witness :
    storeGet (preprocessParametersStore demoStore 0 (.zObject [("a", .zBoolean)])).1 0 =
      storeGet demoStore 0 ∧
    (preprocessParametersStore demoStore 0 (.zObject [("a", .zBoolean)])).2 =
      .newObj 1 ∧
    preprocessParametersStore demoStore 0 .zString = (demoStore, .orig) := by
  have h1 := c10_preprocess_no_mutation demoStore 0 (.zObject [("a", .zBoolean)])
    (by simp [demoStore])
  have h2 := c10_preprocess_no_mutation demoStore 0 .zString (by simp [demoStore])
  exact ⟨h1.1, (h1.2.1 [("a", .zBoolean)] rfl).1, h2.2.2 (fun _ h => ZodKind.noConfusion h)⟩
